import Mathlib

/-!
# DesafioDio: credit card validation (`src/index.js`)

A shallow embedding of `validateCreditCard` and `luhnCheck`.

Modelling conventions.

* A JavaScript string is embedded as a Lean `String`, read through its list of
  characters.  The program only ever asks whether a character is one of the
  ASCII digits and how many characters there are; a string with a character
  outside the digits is turned away by the guard (or makes the checksum `NaN`)
  whatever its length in UTF-16 units, so nothing depends on the encoding.
* A JavaScript number is embedded as `Option Nat`: `some n` is the integer `n`,
  `none` is `NaN`.  The only numbers the program builds are sums of at most
  `9 * length` of small non-negative integers, far below `2^53`, so they are
  exact.
* The regular expression literals of the source are embedded as values of the
  type `Regex` below; every literal of the source has the shape `/^...$/`
  (no flags), so `test` asks for a match of the whole string.
-/

namespace DesafioDio

/-! ## Regular expressions -/

/-- Abstract syntax of the regular expressions the source uses. -/
inductive Regex where
  /-- a literal character, such as `4` -/
  | lit (c : Char)
  /-- a character class listing its members, such as `[47]` -/
  | cls (cs : List Char)
  /-- a character class given by a range, such as `[0-9]`; `\d` is `[0-9]` -/
  | range (lo hi : Char)
  /-- concatenation -/
  | seq (a b : Regex)
  /-- alternation `a|b` -/
  | alt (a b : Regex)
  /-- bounded repetition `r{lo,hi}`; `r{n}` is `r{n,n}` -/
  | rep (r : Regex) (lo hi : Nat)
  /-- the quantifier `r+`: one or more times -/
  | plus (r : Regex)
  deriving Repr

/-- All ways of applying `f` at most `extra` times in a row: the remainders
that are left. -/
def iterUpTo (f : List Char → List (List Char)) : Nat → List Char → List (List Char)
  | 0, s => [s]
  | extra + 1, s => s :: (f s).flatMap (iterUpTo f extra)

/-- All ways of applying `f` between `lo` and `lo + extra` times in a row:
the remainders that are left. -/
def iter (f : List Char → List (List Char)) : Nat → Nat → List Char → List (List Char)
  | 0, extra, s => iterUpTo f extra s
  | lo + 1, extra, s => (f s).flatMap (iter f lo extra)

/-- The matcher: `r.run s` lists what is left of `s` after each way of matching
`r` against a prefix of `s`.  For `r+` the number of rounds is capped at
`1 + s.length`: a round that uses up no character adds nothing, and there is
room for at most `s.length` rounds that do. -/
def Regex.run : Regex → List Char → List (List Char)
  | .lit c => fun s =>
      match s with
      | x :: t => if x = c then [t] else []
      | [] => []
  | .cls cs => fun s =>
      match s with
      | x :: t => if x ∈ cs then [t] else []
      | [] => []
  | .range lo hi => fun s =>
      match s with
      | x :: t => if lo ≤ x ∧ x ≤ hi then [t] else []
      | [] => []
  | .seq a b => fun s => (a.run s).flatMap b.run
  | .alt a b => fun s => a.run s ++ b.run s
  | .rep r lo hi => fun s => iter r.run lo (hi - lo) s
  | .plus r => fun s => iter r.run 1 s.length s

/-- The method `regex.test(str)` for a literal `/^r$/`: some match of `r`
uses up the whole string. -/
def Regex.test (r : Regex) (str : String) : Bool :=
  (r.run str.data).any List.isEmpty

/-- The class `\d`. -/
def Regex.digit : Regex := .range '0' '9'

/-- The class `[0-9]`. -/
def Regex.d09 : Regex := .range '0' '9'

/-! ## The program -/

/-- The object `validateCreditCard` returns; `message` is `none` when the
object has no such field. -/
structure ValidationResult where
  isValid : Bool
  brand : String
  message : Option String
  deriving DecidableEq, Repr

/-- The literal `/^\d+$/` of the guard. -/
def guardRegex : Regex := .plus .digit

/-- The entry `visa` of `cardBrands`: `/^4[0-9]{11,15}$/`. -/
def visaRegex : Regex := .seq (.lit '4') (.rep .d09 11 15)

/-- The entry `mastercard` of `cardBrands`: `/^5[1-5][0-9]{14}$/`. -/
def mastercardRegex : Regex := .seq (.lit '5') (.seq (.range '1' '5') (.rep .d09 14 14))

/-- The entry `amex` of `cardBrands`: `/^3[47][0-9]{13}$/`. -/
def amexRegex : Regex := .seq (.lit '3') (.seq (.cls ['4', '7']) (.rep .d09 13 13))

/-- The entry `discover` of `cardBrands`: `/^6(?:011|5[0-9]{2})[0-9]{12}$/`. -/
def discoverRegex : Regex :=
  .seq (.lit '6')
    (.seq (.alt (.seq (.lit '0') (.seq (.lit '1') (.lit '1')))
                (.seq (.lit '5') (.rep .d09 2 2)))
          (.rep .d09 12 12))

/-- The entry `diners` of `cardBrands`: `/^3(?:0[0-5]|[68][0-9])[0-9]{11}$/`. -/
def dinersRegex : Regex :=
  .seq (.lit '3')
    (.seq (.alt (.seq (.lit '0') (.range '0' '5'))
                (.seq (.cls ['6', '8']) .d09))
          (.rep .d09 11 11))

/-- The entry `jcb` of `cardBrands`: `/^(?:2131|1800|35\d{3})\d{11}$/`. -/
def jcbRegex : Regex :=
  .seq (.alt (.seq (.lit '2') (.seq (.lit '1') (.seq (.lit '3') (.lit '1'))))
         (.alt (.seq (.lit '1') (.seq (.lit '8') (.seq (.lit '0') (.lit '0'))))
               (.seq (.lit '3') (.seq (.lit '5') (.rep .digit 3 3)))))
       (.rep .digit 11 11)

/-- The table `cardBrands`, as `Object.entries` lists it: in the order in which
the keys are written. -/
def cardBrands : List (String × Regex) :=
  [ ("visa", visaRegex), ("mastercard", mastercardRegex), ("amex", amexRegex),
    ("discover", discoverRegex), ("diners", dinersRegex), ("jcb", jcbRegex) ]

/-- The call `parseInt(ch, 10)` on a one-character string (`none` when the index
is out of range): the value of a decimal digit, `NaN` for anything else. -/
def parseInt (ch : Option Char) : Option Nat :=
  match ch with
  | some c => if c.isDigit then some (c.toNat - '0'.toNat) else none
  | none => none

/-- The body of the `if (shouldDouble)` block: `digit *= 2; if (digit > 9) digit -= 9`. -/
def doubleDigit (digit : Option Nat) : Option Nat :=
  match digit with
  | some d => if 2 * d > 9 then some (2 * d - 9) else some (2 * d)
  | none => none

/-- Addition of JavaScript numbers, `NaN` absorbing. -/
def jsAdd (a b : Option Nat) : Option Nat :=
  match a, b with
  | some x, some y => some (x + y)
  | _, _ => none

/-- The `for` loop of `luhnCheck`: the first argument is `i + 1` for the loop
index `i`, which runs down to `0`; the result is the final `sum`. -/
def luhnLoop (cardNumber : List Char) : Nat → Option Nat → Bool → Option Nat
  | 0, sum, _ => sum
  | i + 1, sum, shouldDouble =>
      let digit := parseInt cardNumber[i]?
      let digit := if shouldDouble then doubleDigit digit else digit
      luhnLoop cardNumber i (jsAdd sum digit) (!shouldDouble)

/-- The final `sum` of `luhnCheck`. -/
def luhnSum (cardNumber : String) : Option Nat :=
  luhnLoop cardNumber.data cardNumber.length (some 0) false

/-- The function `luhnCheck`: `sum % 10 === 0` (false when `sum` is `NaN`). -/
def luhnCheck (cardNumber : String) : Bool :=
  match luhnSum cardNumber with
  | some sum => sum % 10 == 0
  | none => false

/-- The brand loop of `validateCreditCard`: the key of the first entry whose
regex matches, else the initial value of `brand`. -/
def findBrand : List (String × Regex) → String → String → String
  | [], _, brand => brand
  | (key, regex) :: rest, cardNumber, brand =>
      if regex.test cardNumber then key else findBrand rest cardNumber brand

/-- The function `validateCreditCard`. -/
def validateCreditCard (cardNumber : String) : ValidationResult :=
  if !guardRegex.test cardNumber then
    { isValid := false, brand := "Invalid",
      message := some "Card number must contain only digits." }
  else
    let isValid := luhnCheck cardNumber
    let brand := findBrand cardBrands cardNumber "Unknown"
    { isValid := isValid, brand := brand, message := none }

/-! ## Vocabulary of the specification -/

/-- A digit-only string: every character is one of the decimal digits 0-9. -/
def digitOnly (s : String) : Bool := s.data.all Char.isDigit

/-- The string `s` starts with the characters `pre`. -/
def startsWith (s pre : String) : Bool := pre.data.isPrefixOf s.data

/-- The character of `s` at index `i` exists and lies between `lo` and `hi`. -/
def charIn (s : String) (i : Nat) (lo hi : Char) : Bool :=
  match s.data[i]? with
  | some c => decide (lo ≤ c ∧ c ≤ hi)
  | none => false

/-- The rule for jcb as the specification words it: total length 15 and a
start with 2131, with 1800, or with 35 followed by 3 digits. -/
def jcbRuleStated (s : String) : Bool :=
  s.length == 15 &&
    (startsWith s "2131" || startsWith s "1800" ||
      (startsWith s "35" && charIn s 2 '0' '9' && charIn s 3 '0' '9' && charIn s 4 '0' '9'))

/-- The rule for diners as the specification words it: total length 14 and a
start either with 30 followed by a digit in 0-5, or with 6 or 8 followed by any
digit. -/
def dinersRuleStated (s : String) : Bool :=
  s.length == 14 &&
    ((startsWith s "30" && charIn s 2 '0' '5') ||
      ((startsWith s "6" || startsWith s "8") && charIn s 1 '0' '9'))

/-- The value of the decimal digit `c`. -/
def digitValue (c : Char) : Nat := c.toNat - '0'.toNat

/-- The digit of `s` at position `k` counted from the right end; the rightmost
digit has `k = 0`. -/
def digitFromRight (s : String) (k : Nat) : Nat :=
  match s.data[s.length - 1 - k]? with
  | some c => digitValue c
  | none => 0

/-- The value of the digit of `cs` at index `i`, counted from the left. -/
def digitAt (cs : List Char) (i : Nat) : Nat :=
  match cs[i]? with
  | some c => digitValue c
  | none => 0

/-- What the digit `d` at position `k` from the right adds to the Luhn sum, in
the words of the specification: `d` itself when `k` is even, and `2 * d`, minus
`9` when `2 * d` exceeds `9`, when `k` is odd. -/
def luhnTerm (k d : Nat) : Nat :=
  if k % 2 = 0 then d else if 2 * d > 9 then 2 * d - 9 else 2 * d

/-- The Luhn sum of the specification: the sum of `luhnTerm` over every
position of `s` counted from the right end. -/
def luhnSumSpec (s : String) : Nat :=
  ((List.range s.length).map fun k => luhnTerm k (digitFromRight s k)).sum

/-- The string `s` with the character at index `i` replaced by `c`. -/
def setChar (s : String) (i : Nat) (c : Char) : String :=
  ⟨s.data.set i c⟩

/-- The string `s` with the characters at the indices `i` and `j` exchanged. -/
def swapChars (s : String) (i j : Nat) : String :=
  ⟨(s.data.set i (s.data.getD j '0')).set j (s.data.getD i '0')⟩

/-! ## Facts about the matcher -/

theorem isDigit_iff (c : Char) : c.isDigit = true ↔ '0' ≤ c ∧ c ≤ '9' := by
  simp [Char.isDigit, Char.le_def]

/-- The characters of the class `[1-5]`. -/
theorem range15 (c : Char) :
    ('1' ≤ c ∧ c ≤ '5') ↔ c = '1' ∨ c = '2' ∨ c = '3' ∨ c = '4' ∨ c = '5' := by
  constructor
  · rintro ⟨h1, h2⟩
    have h1' : 49 ≤ c.toNat := h1
    have h2' : c.toNat ≤ 53 := h2
    have hc : c = Char.ofNat c.toNat := by simp
    rw [hc]
    interval_cases c.toNat <;> simp
  · rintro (rfl | rfl | rfl | rfl | rfl) <;> decide

theorem mem_run_lit {c : Char} {s u : List Char} :
    u ∈ (Regex.lit c).run s ↔ s = c :: u := by
  cases s with
  | nil => simp [Regex.run]
  | cons x t =>
    by_cases h : x = c
    · simp [Regex.run, h, eq_comm]
    · simp [Regex.run, h]

theorem mem_run_cls {cs : List Char} {s u : List Char} :
    u ∈ (Regex.cls cs).run s ↔ ∃ x, x ∈ cs ∧ s = x :: u := by
  cases s with
  | nil => simp [Regex.run]
  | cons x t =>
    by_cases h : x ∈ cs
    · simp only [Regex.run, if_pos h, List.mem_singleton]
      constructor
      · rintro rfl
        exact ⟨x, h, rfl⟩
      · rintro ⟨y, -, hxy⟩
        simp only [List.cons.injEq] at hxy
        exact hxy.2.symm
    · simp only [Regex.run, h, if_false, List.not_mem_nil, false_iff]
      rintro ⟨y, hy, hxy⟩
      simp only [List.cons.injEq] at hxy
      exact h (hxy.1 ▸ hy)

theorem mem_run_range {lo hi : Char} {s u : List Char} :
    u ∈ (Regex.range lo hi).run s ↔ ∃ x, (lo ≤ x ∧ x ≤ hi) ∧ s = x :: u := by
  cases s with
  | nil => simp [Regex.run]
  | cons x t =>
    by_cases h : lo ≤ x ∧ x ≤ hi
    · simp only [Regex.run, if_pos h, List.mem_singleton]
      constructor
      · rintro rfl
        exact ⟨x, h, rfl⟩
      · rintro ⟨y, -, hxy⟩
        simp only [List.cons.injEq] at hxy
        exact hxy.2.symm
    · simp only [Regex.run, h, if_false, List.not_mem_nil, false_iff]
      rintro ⟨y, hy, hxy⟩
      simp only [List.cons.injEq] at hxy
      exact h (hxy.1 ▸ hy)

theorem mem_run_seq {a b : Regex} {s u : List Char} :
    u ∈ (Regex.seq a b).run s ↔ ∃ m, m ∈ a.run s ∧ u ∈ b.run m := by
  simp [Regex.run, List.mem_flatMap]

theorem mem_run_alt {a b : Regex} {s u : List Char} :
    u ∈ (Regex.alt a b).run s ↔ u ∈ a.run s ∨ u ∈ b.run s := by
  simp [Regex.run]

/-- Repeating a one-character step at most `e` times strips a prefix of at most
`e` characters, all of which pass the step. -/
theorem mem_iterUpTo {f : List Char → List (List Char)} {p : Char → Prop}
    (hf : ∀ s u, u ∈ f s ↔ ∃ x, p x ∧ s = x :: u) (e : Nat) (s u : List Char) :
    u ∈ iterUpTo f e s ↔ ∃ w, s = w ++ u ∧ w.length ≤ e ∧ ∀ c ∈ w, p c := by
  induction e generalizing s with
  | zero =>
    simp only [iterUpTo, List.mem_singleton, Nat.le_zero, List.length_eq_zero]
    constructor
    · rintro rfl
      exact ⟨[], rfl, rfl, by simp⟩
    · rintro ⟨w, hs, rfl, -⟩
      simpa using hs.symm
  | succ e ih =>
    simp only [iterUpTo, List.mem_cons, List.mem_flatMap, hf, ih]
    constructor
    · rintro (rfl | ⟨m, ⟨x, hx, rfl⟩, w, rfl, hw, hp⟩)
      · exact ⟨[], rfl, by simp, by simp⟩
      · refine ⟨x :: w, rfl, by simpa using hw, ?_⟩
        intro c hc
        rcases List.mem_cons.1 hc with rfl | hc
        · exact hx
        · exact hp c hc
    · rintro ⟨w, rfl, hw, hp⟩
      cases w with
      | nil => exact Or.inl rfl
      | cons x w =>
        refine Or.inr ⟨w ++ u, ⟨x, hp x (by simp), rfl⟩, w, rfl, ?_, ?_⟩
        · simpa using hw
        · exact fun c hc => hp c (by simp [hc])

/-- Repeating a one-character step between `lo` and `lo + e` times. -/
theorem mem_iter {f : List Char → List (List Char)} {p : Char → Prop}
    (hf : ∀ s u, u ∈ f s ↔ ∃ x, p x ∧ s = x :: u) (lo e : Nat) (s u : List Char) :
    u ∈ iter f lo e s ↔
      ∃ w, s = w ++ u ∧ lo ≤ w.length ∧ w.length ≤ lo + e ∧ ∀ c ∈ w, p c := by
  induction lo generalizing s with
  | zero => simp [iter, mem_iterUpTo hf]
  | succ lo ih =>
    simp only [iter, List.mem_flatMap, hf, ih]
    constructor
    · rintro ⟨m, ⟨x, hx, rfl⟩, w, rfl, hw1, hw2, hp⟩
      refine ⟨x :: w, rfl, by simpa using hw1, by simp; omega, ?_⟩
      intro c hc
      rcases List.mem_cons.1 hc with rfl | hc
      · exact hx
      · exact hp c hc
    · rintro ⟨w, rfl, hw1, hw2, hp⟩
      cases w with
      | nil => simp at hw1
      | cons x w =>
        refine ⟨w ++ u, ⟨x, hp x (by simp), rfl⟩, w, rfl, ?_, ?_, ?_⟩
        · simpa using hw1
        · simp at hw2; omega
        · exact fun c hc => hp c (by simp [hc])

theorem mem_run_rep_range {lo hi : Char} {n m : Nat} {s u : List Char} :
    u ∈ (Regex.rep (.range lo hi) n m).run s ↔
      ∃ w, s = w ++ u ∧ n ≤ w.length ∧ w.length ≤ n + (m - n) ∧
        ∀ c ∈ w, lo ≤ c ∧ c ≤ hi :=
  mem_iter (fun _ _ => mem_run_range) n (m - n) s u

theorem mem_run_plus_range {lo hi : Char} {s u : List Char} :
    u ∈ (Regex.plus (.range lo hi)).run s ↔
      ∃ w, s = w ++ u ∧ 1 ≤ w.length ∧ w.length ≤ 1 + s.length ∧
        ∀ c ∈ w, lo ≤ c ∧ c ≤ hi :=
  mem_iter (fun _ _ => mem_run_range) 1 s.length s u

/-- A repetition of a range class that runs to the end of the input. -/
theorem nil_mem_run_rep_range {lo hi : Char} {n m : Nat} {s : List Char} :
    [] ∈ (Regex.rep (.range lo hi) n m).run s ↔
      n ≤ s.length ∧ s.length ≤ n + (m - n) ∧ ∀ c ∈ s, lo ≤ c ∧ c ≤ hi := by
  rw [mem_run_rep_range]
  constructor
  · rintro ⟨w, rfl, h1, h2, h3⟩
    simpa using ⟨h1, h2, h3⟩
  · rintro ⟨h1, h2, h3⟩
    exact ⟨s, by simp, h1, h2, h3⟩

theorem test_iff (r : Regex) (s : String) : r.test s = true ↔ [] ∈ r.run s.data := by
  simp only [Regex.test, List.any_eq_true, List.isEmpty_iff]
  constructor
  · rintro ⟨x, hx, rfl⟩
    exact hx
  · intro h
    exact ⟨[], h, rfl⟩

theorem digitOnly_iff (s : String) :
    digitOnly s = true ↔ ∀ c ∈ s.data, '0' ≤ c ∧ c ≤ '9' := by
  simp only [digitOnly, List.all_eq_true, isDigit_iff]

theorem ne_empty_iff (s : String) : s ≠ "" ↔ s.data ≠ [] := by
  constructor
  · intro h hd
    apply h
    cases s
    simp_all
  · rintro h rfl
    exact h rfl

/-- The guard lets exactly the non-empty digit-only strings through. -/
theorem guard_test_iff (s : String) :
    guardRegex.test s = true ↔ s ≠ "" ∧ digitOnly s = true := by
  rw [test_iff, digitOnly_iff, ne_empty_iff]
  show [] ∈ (Regex.plus (.range '0' '9')).run s.data ↔ _
  rw [mem_run_plus_range]
  constructor
  · rintro ⟨w, hw, h1, -, h3⟩
    rw [List.append_nil] at hw
    subst hw
    refine ⟨?_, h3⟩
    intro h
    rw [h] at h1
    simp at h1
  · rintro ⟨h1, h2⟩
    refine ⟨s.data, by simp, ?_, by omega, h2⟩
    cases hs : s.data with
    | nil => exact absurd hs h1
    | cons x t => simp

theorem visa_test_iff (s : String) :
    visaRegex.test s = true ↔
      ∃ w, s.data = '4' :: w ∧ 11 ≤ w.length ∧ w.length ≤ 15 ∧
        ∀ c ∈ w, '0' ≤ c ∧ c ≤ '9' := by
  rw [test_iff]
  simp only [visaRegex, Regex.d09, mem_run_seq, mem_run_lit, nil_mem_run_rep_range]

theorem mastercard_test_iff (s : String) :
    mastercardRegex.test s = true ↔
      ∃ x w, s.data = '5' :: x :: w ∧ ('1' ≤ x ∧ x ≤ '5') ∧ w.length = 14 ∧
        ∀ c ∈ w, '0' ≤ c ∧ c ≤ '9' := by
  rw [test_iff]
  simp only [mastercardRegex, Regex.d09, mem_run_seq, mem_run_lit, mem_run_range,
    nil_mem_run_rep_range]
  constructor
  · rintro ⟨m, hs, w, ⟨x, hx, rfl⟩, h1, h2, h3⟩
    exact ⟨x, w, hs, hx, by omega, h3⟩
  · rintro ⟨x, w, hs, hx, h1, h3⟩
    exact ⟨x :: w, hs, w, ⟨x, hx, rfl⟩, by omega, by omega, h3⟩

theorem amex_test_iff (s : String) :
    amexRegex.test s = true ↔
      ∃ x w, s.data = '3' :: x :: w ∧ (x = '4' ∨ x = '7') ∧ w.length = 13 ∧
        ∀ c ∈ w, '0' ≤ c ∧ c ≤ '9' := by
  rw [test_iff]
  simp only [amexRegex, Regex.d09, mem_run_seq, mem_run_lit, mem_run_cls,
    nil_mem_run_rep_range]
  constructor
  · rintro ⟨m, hs, w, ⟨x, hx, rfl⟩, h1, h2, h3⟩
    exact ⟨x, w, hs, by simpa using hx, by omega, h3⟩
  · rintro ⟨x, w, hs, hx, h1, h3⟩
    exact ⟨x :: w, hs, w, ⟨x, by simpa using hx, rfl⟩, by omega, by omega, h3⟩

/-- A match of the `discover` pattern starts with `6`. -/
theorem discover_test_head (s : String) (h : discoverRegex.test s = true) :
    ∃ w, s.data = '6' :: w := by
  rw [test_iff] at h
  simp only [discoverRegex, mem_run_seq, mem_run_lit] at h
  obtain ⟨m, hs, -⟩ := h
  exact ⟨m, hs⟩

theorem diners_test_iff (s : String) :
    dinersRegex.test s = true ↔
      ∃ x y w, s.data = '3' :: x :: y :: w ∧
        ((x = '0' ∧ '0' ≤ y ∧ y ≤ '5') ∨ ((x = '6' ∨ x = '8') ∧ '0' ≤ y ∧ y ≤ '9')) ∧
        w.length = 11 ∧ ∀ c ∈ w, '0' ≤ c ∧ c ≤ '9' := by
  rw [test_iff]
  simp only [dinersRegex, Regex.d09, mem_run_seq, mem_run_lit, mem_run_cls, mem_run_alt,
    mem_run_range, nil_mem_run_rep_range]
  constructor
  · rintro ⟨m, hs, w, (⟨m2, rfl, y, hy, rfl⟩ | ⟨m2, ⟨x, hx, rfl⟩, y, hy, rfl⟩), h1, h2, h3⟩
    · exact ⟨'0', y, w, hs, Or.inl ⟨rfl, hy⟩, by omega, h3⟩
    · exact ⟨x, y, w, hs, Or.inr ⟨by simpa using hx, hy⟩, by omega, h3⟩
  · rintro ⟨x, y, w, hs, (⟨rfl, hy⟩ | ⟨hx, hy⟩), h1, h3⟩
    · exact ⟨_, hs, w, Or.inl ⟨_, rfl, y, hy, rfl⟩, by omega, by omega, h3⟩
    · exact ⟨_, hs, w, Or.inr ⟨_, ⟨x, by simpa using hx, rfl⟩, y, hy, rfl⟩, by omega,
        by omega, h3⟩

theorem jcb_test_iff (s : String) :
    jcbRegex.test s = true ↔
      ∃ w, (s.data = '2' :: '1' :: '3' :: '1' :: w ∧ w.length = 11 ∨
            s.data = '1' :: '8' :: '0' :: '0' :: w ∧ w.length = 11 ∨
            s.data = '3' :: '5' :: w ∧ w.length = 14) ∧
        ∀ c ∈ w, '0' ≤ c ∧ c ≤ '9' := by
  rw [test_iff]
  simp only [jcbRegex, Regex.digit, mem_run_seq, mem_run_lit, mem_run_alt,
    mem_run_rep_range, List.append_nil]
  constructor
  · rintro ⟨m, (⟨m1, hs, m2, rfl, m3, rfl, rfl⟩ | ⟨m1, hs, m2, rfl, m3, rfl, rfl⟩ |
        ⟨m1, hs, m2, rfl, w, rfl, hw1, hw2, hw3⟩), v, rfl, h1, h2, h3⟩
    · exact ⟨m, Or.inl ⟨hs, by omega⟩, h3⟩
    · exact ⟨m, Or.inr (Or.inl ⟨hs, by omega⟩), h3⟩
    · refine ⟨w ++ m, Or.inr (Or.inr ⟨hs, by rw [List.length_append]; omega⟩), ?_⟩
      intro c hc
      rcases List.mem_append.1 hc with hc | hc
      · exact hw3 c hc
      · exact h3 c hc
  · rintro ⟨w, (⟨hs, hw⟩ | ⟨hs, hw⟩ | ⟨hs, hw⟩), h3⟩
    · exact ⟨w, Or.inl ⟨_, hs, _, rfl, _, rfl, rfl⟩, w, rfl, by omega, by omega, h3⟩
    · exact ⟨w, Or.inr (Or.inl ⟨_, hs, _, rfl, _, rfl, rfl⟩), w, rfl, by omega, by omega, h3⟩
    · have ht : (w.take 3).length = 3 := by rw [List.length_take]; omega
      have hdr : (w.drop 3).length = 11 := by rw [List.length_drop]; omega
      refine ⟨w.drop 3, Or.inr (Or.inr ⟨_, hs, _, rfl, w.take 3, ?_, by omega, by omega,
        fun c hc => h3 c (List.mem_of_mem_take hc)⟩), w.drop 3, rfl, by omega, by omega,
        fun c hc => h3 c (List.mem_of_mem_drop hc)⟩
      exact (List.take_append_drop 3 w).symm

theorem findBrand_cardBrands (s : String) :
    findBrand cardBrands s "Unknown" =
      if visaRegex.test s = true then "visa"
      else if mastercardRegex.test s = true then "mastercard"
      else if amexRegex.test s = true then "amex"
      else if discoverRegex.test s = true then "discover"
      else if dinersRegex.test s = true then "diners"
      else if jcbRegex.test s = true then "jcb"
      else "Unknown" := rfl

/-- A string that passes the guard gets its validity from `luhnCheck` and its
brand from the table. -/
theorem validate_of_digits (s : String) (hne : s ≠ "") (hd : digitOnly s = true) :
    validateCreditCard s =
      { isValid := luhnCheck s, brand := findBrand cardBrands s "Unknown", message := none } := by
  have h := (guard_test_iff s).2 ⟨hne, hd⟩
  simp [validateCreditCard, h]

/-- A string that fails the guard gets the fixed rejection. -/
theorem validate_of_not_digits (s : String) (h : ¬ (s ≠ "" ∧ digitOnly s = true)) :
    validateCreditCard s =
      { isValid := false, brand := "Invalid",
        message := some "Card number must contain only digits." } := by
  have h' : guardRegex.test s = false := by
    rw [← Bool.not_eq_true, guard_test_iff]
    exact h
  simp [validateCreditCard, h']

/-! ## Facts about the checksum loop -/

theorem luhnTerm_add_two (k d : Nat) : luhnTerm (k + 2) d = luhnTerm k d := by
  simp [luhnTerm, Nat.add_mod]

/-- The digit the loop reads at index `i`. -/
theorem parseInt_digit (cs : List Char) (hd : ∀ c ∈ cs, c.isDigit = true) (i : Nat)
    (hi : i < cs.length) : parseInt cs[i]? = some (digitAt cs i) := by
  rw [digitAt, List.getElem?_eq_getElem hi]
  have h := hd cs[i] (List.getElem_mem hi)
  simp [parseInt, h, digitValue]

/-- One step of the loop adds the term of the specification. -/
theorem step_digit (dbl : Bool) (d : Nat) :
    (if dbl = true then doubleDigit (some d) else some d) = some (luhnTerm dbl.toNat d) := by
  cases dbl with
  | false => simp [luhnTerm]
  | true =>
    simp only [if_true, doubleDigit, luhnTerm, Bool.toNat_true]
    split_ifs <;> simp_all

theorem luhn_sum_step (v : Nat → Nat) (n b : Nat) :
    ((List.range (n + 1)).map fun j => luhnTerm (j + b) (v (n + 1 - 1 - j))).sum =
      luhnTerm b (v n) +
        ((List.range n).map fun j => luhnTerm (j + 1 + b) (v (n - 1 - j))).sum := by
  rw [List.range_succ_eq_map, List.map_cons, List.sum_cons, List.map_map]
  simp only [Nat.zero_add, Nat.add_sub_cancel, Nat.sub_zero]
  congr 1
  congr 1
  apply List.map_congr_left
  intro j _
  simp only [Function.comp, Nat.succ_eq_add_one]
  have e : n - (j + 1) = n - 1 - j := by omega
  rw [e]

/-- The loop invariant: started at index `n - 1` with the sum `a` and the flag
`dbl`, the loop over digits ends with `a` plus the contributions of the `n`
digits it reads, doubled at every second step. -/
theorem luhnLoop_digits (cs : List Char) (hd : ∀ c ∈ cs, c.isDigit = true) :
    ∀ (n : Nat), n ≤ cs.length → ∀ (a : Nat) (dbl : Bool),
      luhnLoop cs n (some a) dbl =
        some (a + ((List.range n).map fun j =>
          luhnTerm (j + dbl.toNat) (digitAt cs (n - 1 - j))).sum) := by
  intro n
  induction n with
  | zero => intro _ a dbl; simp [luhnLoop]
  | succ n ih =>
    intro hn a dbl
    rw [luhnLoop]
    simp only [parseInt_digit cs hd n (by omega), step_digit, jsAdd]
    rw [ih (by omega), luhn_sum_step (digitAt cs) n dbl.toNat, Nat.add_assoc]
    congr 4
    apply List.map_congr_left
    intro j _
    cases dbl with
    | false => simp
    | true => simp [luhnTerm_add_two]

/-- On a digit-only string the loop computes the Luhn sum of the specification. -/
theorem luhnSum_eq_spec (s : String) (hd : digitOnly s = true) :
    luhnSum s = some (luhnSumSpec s) := by
  have hd' : ∀ c ∈ s.data, c.isDigit = true := by
    simpa [digitOnly, List.all_eq_true] using hd
  have h := luhnLoop_digits s.data hd' s.data.length (Nat.le_refl _) 0 false
  simp only [Bool.toNat_false, Nat.add_zero, Nat.zero_add] at h
  exact h

/-- On a digit-only string `luhnCheck` tests the Luhn sum of the specification. -/
theorem luhnCheck_eq_spec (s : String) (hd : digitOnly s = true) :
    luhnCheck s = true ↔ luhnSumSpec s % 10 = 0 := by
  simp [luhnCheck, luhnSum_eq_spec s hd]

/-! ## Facts about the brand loop -/

theorem startsWith_iff (s pre : String) :
    startsWith s pre = true ↔ ∃ w, s.data = pre.data ++ w := by
  rw [startsWith, List.isPrefixOf_iff_prefix]
  constructor
  · rintro ⟨w, hw⟩
    exact ⟨w, hw.symm⟩
  · rintro ⟨w, hw⟩
    exact ⟨w, hw.symm⟩

theorem length_eq_data (s : String) : s.length = s.data.length := rfl

theorem findBrand_skip (pre rest : List (String × Regex)) (s b : String)
    (h : ∀ e ∈ pre, e.2.test s = false) :
    findBrand (pre ++ rest) s b = findBrand rest s b := by
  induction pre with
  | nil => rfl
  | cons e pre ih =>
    obtain ⟨key, regex⟩ := e
    have he : regex.test s = false := h (key, regex) (by simp)
    simp only [List.cons_append, findBrand, he, Bool.false_eq_true, if_false]
    exact ih (fun e' he' => h e' (by simp [he']))

theorem findBrand_hit (key : String) (regex : Regex) (post : List (String × Regex))
    (s b : String) (h : regex.test s = true) :
    findBrand ((key, regex) :: post) s b = key := by
  simp [findBrand, h]

theorem findBrand_eq_default_iff (tbl : List (String × Regex)) (s b : String)
    (hb : ∀ e ∈ tbl, e.1 ≠ b) :
    findBrand tbl s b = b ↔ ∀ e ∈ tbl, e.2.test s = false := by
  induction tbl with
  | nil => simp [findBrand]
  | cons e tbl ih =>
    obtain ⟨key, regex⟩ := e
    have hk : key ≠ b := hb (key, regex) (by simp)
    have ih' := ih (fun e' he' => hb e' (by simp [he']))
    cases ht : regex.test s with
    | true => simp [findBrand, ht, hk]
    | false => simp [findBrand, ht, ih']

theorem findBrand_congr (tbl : List (String × Regex)) (s t b : String)
    (h : ∀ e ∈ tbl, e.2.test t = e.2.test s) :
    findBrand tbl t b = findBrand tbl s b := by
  induction tbl with
  | nil => rfl
  | cons e tbl ih =>
    obtain ⟨key, regex⟩ := e
    have he : regex.test t = regex.test s := h (key, regex) (by simp)
    simp only [findBrand, he]
    rw [ih (fun e' he' => h e' (by simp [he']))]

/-- What each pattern asks of the first characters of a match. -/
theorem visa_lead (s : String) (h : visaRegex.test s = true) : ∃ w, s.data = '4' :: w := by
  obtain ⟨w, hs, -⟩ := (visa_test_iff s).1 h
  exact ⟨w, hs⟩

theorem mastercard_lead (s : String) (h : mastercardRegex.test s = true) :
    ∃ w, s.data = '5' :: w := by
  obtain ⟨x, w, hs, -⟩ := (mastercard_test_iff s).1 h
  exact ⟨x :: w, hs⟩

theorem amex_lead (s : String) (h : amexRegex.test s = true) :
    ∃ w, s.data = '3' :: '4' :: w ∨ s.data = '3' :: '7' :: w := by
  obtain ⟨x, w, hs, (rfl | rfl), -⟩ := (amex_test_iff s).1 h
  · exact ⟨w, Or.inl hs⟩
  · exact ⟨w, Or.inr hs⟩

theorem diners_lead (s : String) (h : dinersRegex.test s = true) :
    ∃ w, s.data = '3' :: '0' :: w ∨ s.data = '3' :: '6' :: w ∨ s.data = '3' :: '8' :: w := by
  obtain ⟨x, y, w, hs, (⟨rfl, -⟩ | ⟨(rfl | rfl), -⟩), -⟩ := (diners_test_iff s).1 h
  · exact ⟨y :: w, Or.inl hs⟩
  · exact ⟨y :: w, Or.inr (Or.inl hs)⟩
  · exact ⟨y :: w, Or.inr (Or.inr hs)⟩

theorem jcb_lead (s : String) (h : jcbRegex.test s = true) :
    ∃ w, s.data = '2' :: w ∨ s.data = '1' :: w ∨ s.data = '3' :: '5' :: w := by
  obtain ⟨w, (⟨hs, -⟩ | ⟨hs, -⟩ | ⟨hs, -⟩), -⟩ := (jcb_test_iff s).1 h
  · exact ⟨_, Or.inl hs⟩
  · exact ⟨_, Or.inr (Or.inl hs)⟩
  · exact ⟨_, Or.inr (Or.inr hs)⟩

theorem not_visa_of_mastercard (s : String) (h : mastercardRegex.test s = true) :
    visaRegex.test s = false := by
  rw [← Bool.not_eq_true]
  intro h'
  obtain ⟨w, hw⟩ := mastercard_lead s h
  obtain ⟨v, hv⟩ := visa_lead s h'
  rw [hv] at hw
  simp at hw

theorem amex_excl (s : String) (h : amexRegex.test s = true) :
    visaRegex.test s = false ∧ mastercardRegex.test s = false := by
  obtain ⟨w, hw⟩ := amex_lead s h
  refine ⟨?_, ?_⟩ <;> rw [← Bool.not_eq_true] <;> intro h'
  · obtain ⟨v, hv⟩ := visa_lead s h'
    rw [hv] at hw
    simp at hw
  · obtain ⟨v, hv⟩ := mastercard_lead s h'
    rw [hv] at hw
    simp at hw

theorem diners_excl (s : String) (h : dinersRegex.test s = true) :
    visaRegex.test s = false ∧ mastercardRegex.test s = false ∧
      amexRegex.test s = false ∧ discoverRegex.test s = false := by
  obtain ⟨w, hw⟩ := diners_lead s h
  refine ⟨?_, ?_, ?_, ?_⟩ <;> rw [← Bool.not_eq_true] <;> intro h'
  · obtain ⟨v, hv⟩ := visa_lead s h'
    rw [hv] at hw
    simp at hw
  · obtain ⟨v, hv⟩ := mastercard_lead s h'
    rw [hv] at hw
    simp at hw
  · obtain ⟨v, hv | hv⟩ := amex_lead s h' <;>
    · rw [hv] at hw
      simp at hw
  · obtain ⟨v, hv⟩ := discover_test_head s h'
    rw [hv] at hw
    simp at hw

theorem jcb_excl (s : String) (h : jcbRegex.test s = true) :
    visaRegex.test s = false ∧ mastercardRegex.test s = false ∧
      amexRegex.test s = false ∧ discoverRegex.test s = false ∧
      dinersRegex.test s = false := by
  obtain ⟨w, hw⟩ := jcb_lead s h
  refine ⟨?_, ?_, ?_, ?_, ?_⟩ <;> rw [← Bool.not_eq_true] <;> intro h'
  · obtain ⟨v, hv⟩ := visa_lead s h'
    rw [hv] at hw
    simp at hw
  · obtain ⟨v, hv⟩ := mastercard_lead s h'
    rw [hv] at hw
    simp at hw
  · obtain ⟨v, hv | hv⟩ := amex_lead s h' <;>
    · rw [hv] at hw
      simp at hw
  · obtain ⟨v, hv⟩ := discover_test_head s h'
    rw [hv] at hw
    simp at hw
  · obtain ⟨v, hv | hv | hv⟩ := diners_lead s h' <;>
    · rw [hv] at hw
      simp at hw

theorem brand_visa_iff (s : String) :
    findBrand cardBrands s "Unknown" = "visa" ↔ visaRegex.test s = true := by
  rw [findBrand_cardBrands]
  split_ifs <;> simp_all

theorem brand_mastercard_iff (s : String) :
    findBrand cardBrands s "Unknown" = "mastercard" ↔ mastercardRegex.test s = true := by
  rw [findBrand_cardBrands]
  constructor
  · intro h
    split_ifs at h <;> simp_all
  · intro h
    simp [not_visa_of_mastercard s h, h]

theorem brand_amex_iff (s : String) :
    findBrand cardBrands s "Unknown" = "amex" ↔ amexRegex.test s = true := by
  rw [findBrand_cardBrands]
  constructor
  · intro h
    split_ifs at h <;> simp_all
  · intro h
    simp [amex_excl s h, h]

theorem brand_diners_iff (s : String) :
    findBrand cardBrands s "Unknown" = "diners" ↔ dinersRegex.test s = true := by
  rw [findBrand_cardBrands]
  constructor
  · intro h
    split_ifs at h <;> simp_all
  · intro h
    simp [diners_excl s h, h]

theorem brand_jcb_iff (s : String) :
    findBrand cardBrands s "Unknown" = "jcb" ↔ jcbRegex.test s = true := by
  rw [findBrand_cardBrands]
  constructor
  · intro h
    split_ifs at h <;> simp_all
  · intro h
    simp [jcb_excl s h, h]

/-- Every character of a digit-only string is a digit, whatever part of the
string it stands in. -/
theorem digits_of_suffix (s : String) (hd : digitOnly s = true) (pre w : List Char)
    (hs : s.data = pre ++ w) : ∀ c ∈ w, '0' ≤ c ∧ c ≤ '9' := by
  intro c hc
  exact (digitOnly_iff s).1 hd c (by rw [hs]; exact List.mem_append_right pre hc)

theorem discover_test_iff (s : String) :
    discoverRegex.test s = true ↔
      ∃ w, (s.data = '6' :: '0' :: '1' :: '1' :: w ∧ w.length = 12 ∨
            s.data = '6' :: '5' :: w ∧ w.length = 14) ∧
        ∀ c ∈ w, '0' ≤ c ∧ c ≤ '9' := by
  rw [test_iff]
  simp only [discoverRegex, Regex.d09, mem_run_seq, mem_run_lit, mem_run_alt,
    mem_run_rep_range, List.append_nil]
  constructor
  · rintro ⟨m, hs, m1, (⟨m2, rfl, m3, rfl, rfl⟩ | ⟨m2, rfl, w, rfl, hw1, hw2, hw3⟩),
      v, rfl, h1, h2, h3⟩
    · exact ⟨m1, Or.inl ⟨hs, by omega⟩, h3⟩
    · refine ⟨w ++ m1, Or.inr ⟨hs, by rw [List.length_append]; omega⟩, ?_⟩
      intro c hc
      rcases List.mem_append.1 hc with hc | hc
      · exact hw3 c hc
      · exact h3 c hc
  · rintro ⟨w, (⟨hs, hw⟩ | ⟨hs, hw⟩), h3⟩
    · exact ⟨_, hs, w, Or.inl ⟨_, rfl, _, rfl, rfl⟩, w, rfl, by omega, by omega, h3⟩
    · have ht : (w.take 2).length = 2 := by rw [List.length_take]; omega
      have hdr : (w.drop 2).length = 12 := by rw [List.length_drop]; omega
      refine ⟨_, hs, w.drop 2, Or.inr ⟨_, rfl, w.take 2, ?_, by omega, by omega,
        fun c hc => h3 c (List.mem_of_mem_take hc)⟩, w.drop 2, rfl, by omega, by omega,
        fun c hc => h3 c (List.mem_of_mem_drop hc)⟩
      exact (List.take_append_drop 2 w).symm

theorem discover_excl (s : String) (h : discoverRegex.test s = true) :
    visaRegex.test s = false ∧ mastercardRegex.test s = false ∧
      amexRegex.test s = false := by
  obtain ⟨w, hw⟩ := discover_test_head s h
  refine ⟨?_, ?_, ?_⟩ <;> rw [← Bool.not_eq_true] <;> intro h'
  · obtain ⟨v, hv⟩ := visa_lead s h'
    rw [hv] at hw
    simp at hw
  · obtain ⟨v, hv⟩ := mastercard_lead s h'
    rw [hv] at hw
    simp at hw
  · obtain ⟨v, hv | hv⟩ := amex_lead s h' <;>
    · rw [hv] at hw
      simp at hw

theorem brand_discover_iff (s : String) :
    findBrand cardBrands s "Unknown" = "discover" ↔ discoverRegex.test s = true := by
  rw [findBrand_cardBrands]
  constructor
  · intro h
    split_ifs at h <;> simp_all
  · intro h
    simp [discover_excl s h, h]

/-- In a digit-only string every index below the length holds a digit. -/
theorem charIn_of_digitOnly (s : String) (hd : digitOnly s = true) (i : Nat)
    (hi : i < s.length) : charIn s i '0' '9' = true := by
  have hi' : i < s.data.length := hi
  have h := (digitOnly_iff s).1 hd s.data[i] (List.getElem_mem hi')
  simp [charIn, List.getElem?_eq_getElem hi', h]

/-! ## Facts about the Luhn sum -/

theorem digitValue_le (c : Char) (hc : c.isDigit = true) : digitValue c ≤ 9 := by
  obtain ⟨-, h2⟩ := (isDigit_iff c).1 hc
  have h2' : c.toNat ≤ 57 := h2
  show c.toNat - 48 ≤ 9
  omega

theorem digitValue_inj (c d : Char) (hc : c.isDigit = true) (hd : d.isDigit = true)
    (h : digitValue c = digitValue d) : c = d := by
  obtain ⟨h1, -⟩ := (isDigit_iff c).1 hc
  obtain ⟨h2, -⟩ := (isDigit_iff d).1 hd
  have h1' : 48 ≤ c.toNat := h1
  have h2' : 48 ≤ d.toNat := h2
  have h' : c.toNat - 48 = d.toNat - 48 := h
  have e : c.toNat = d.toNat := by omega
  have ec : c = Char.ofNat c.toNat := by simp
  have ed : d = Char.ofNat d.toNat := by simp
  rw [ec, ed, e]

theorem luhnTerm_le (k d : Nat) (hd : d ≤ 9) : luhnTerm k d ≤ 9 := by
  unfold luhnTerm
  split_ifs <;> omega

theorem luhnTerm_inj (k a b : Nat) (ha : a ≤ 9) (hb : b ≤ 9)
    (h : luhnTerm k a = luhnTerm k b) : a = b := by
  unfold luhnTerm at h
  split_ifs at h <;> omega

theorem luhnTerm_parity (k l d : Nat) (h : k % 2 = l % 2) : luhnTerm k d = luhnTerm l d := by
  unfold luhnTerm
  rw [h]

theorem list_sum_range (f : Nat → Nat) (n : Nat) :
    ((List.range n).map f).sum = ∑ k in Finset.range n, f k := by
  induction n with
  | zero => simp
  | succ n ih => rw [List.range_succ, List.map_append, List.sum_append, ih,
      Finset.sum_range_succ]; simp

/-- The Luhn sum of the specification, indexed from the left end. -/
theorem luhnSumSpec_eq_left (s : String) :
    luhnSumSpec s =
      ∑ i in Finset.range s.length, luhnTerm (s.length - 1 - i) (digitAt s.data i) := by
  have h1 : luhnSumSpec s =
      ∑ k in Finset.range s.length, luhnTerm k (digitAt s.data (s.length - 1 - k)) :=
    list_sum_range _ _
  rw [h1, ← Finset.sum_range_reflect
    (fun i => luhnTerm (s.length - 1 - i) (digitAt s.data i)) s.length]
  apply Finset.sum_congr rfl
  intro k hk
  have hk' : k < s.length := Finset.mem_range.1 hk
  have e : s.length - 1 - (s.length - 1 - k) = k := by omega
  simp only [e]

/-- Two summands that agree everywhere but at one index. -/
theorem sum_one_point (f g : Nat → Nat) (n p : Nat) (hp : p < n)
    (h : ∀ k, k < n → k ≠ p → g k = f k) :
    ∃ R, ∑ k in Finset.range n, f k = R + f p ∧ ∑ k in Finset.range n, g k = R + g p := by
  refine ⟨∑ k in (Finset.range n).erase p, f k, ?_, ?_⟩
  · rw [Finset.sum_erase_add _ _ (Finset.mem_range.2 hp)]
  · rw [← Finset.sum_erase_add _ g (Finset.mem_range.2 hp)]
    congr 1
    apply Finset.sum_congr rfl
    intro k hk
    rw [Finset.mem_erase, Finset.mem_range] at hk
    exact h k hk.2 hk.1

/-- Two summands that agree everywhere but at two indices. -/
theorem sum_two_point (f g : Nat → Nat) (n p q : Nat) (hp : p < n) (hq : q < n)
    (hpq : p ≠ q) (h : ∀ k, k < n → k ≠ p → k ≠ q → g k = f k) :
    ∃ R, ∑ k in Finset.range n, f k = R + f p + f q ∧
      ∑ k in Finset.range n, g k = R + g p + g q := by
  have hq' : q ∈ (Finset.range n).erase p :=
    Finset.mem_erase.2 ⟨fun e => hpq e.symm, Finset.mem_range.2 hq⟩
  refine ⟨∑ k in ((Finset.range n).erase p).erase q, f k, ?_, ?_⟩
  · rw [← Finset.sum_erase_add _ f (Finset.mem_range.2 hp),
      ← Finset.sum_erase_add _ f hq']
    omega
  · rw [← Finset.sum_erase_add _ g (Finset.mem_range.2 hp),
      ← Finset.sum_erase_add _ g hq']
    have e : ∑ k in ((Finset.range n).erase p).erase q, g k =
        ∑ k in ((Finset.range n).erase p).erase q, f k := by
      apply Finset.sum_congr rfl
      intro k hk
      rw [Finset.mem_erase, Finset.mem_erase, Finset.mem_range] at hk
      exact h k hk.2.2 hk.2.1 hk.1
    omega

theorem length_setChar (s : String) (i : Nat) (c : Char) :
    (setChar s i c).length = s.length := by
  show (s.data.set i c).length = s.data.length
  rw [List.length_set]

theorem length_swapChars (s : String) (i j : Nat) :
    (swapChars s i j).length = s.length := by
  show ((s.data.set i (s.data.getD j '0')).set j (s.data.getD i '0')).length = s.data.length
  rw [List.length_set, List.length_set]

theorem digitAt_setChar (s : String) (i : Nat) (c : Char) (hi : i < s.length) (k : Nat) :
    digitAt (setChar s i c).data k = if k = i then digitValue c else digitAt s.data k := by
  have hi' : i < s.data.length := hi
  simp only [digitAt, setChar, List.getElem?_set]
  by_cases h : i = k
  · subst h
    simp [hi]
  · have h' : ¬ k = i := fun e => h e.symm
    simp [h, h']

theorem digitAt_swapChars (s : String) (i j : Nat) (hi : i < s.length) (hj : j < s.length)
    (k : Nat) :
    digitAt (swapChars s i j).data k =
      if k = j then digitAt s.data i else if k = i then digitAt s.data j
      else digitAt s.data k := by
  have hi' : i < s.data.length := hi
  have hj' : j < s.data.length := hj
  simp only [digitAt, swapChars, List.getElem?_set, List.length_set, List.getD_eq_getElem?_getD,
    List.getElem?_eq_getElem hi', List.getElem?_eq_getElem hj', Option.getD_some]
  by_cases h1 : j = k
  · subst h1
    simp [hj]
  · have h1' : ¬ k = j := fun e => h1 e.symm
    by_cases h2 : i = k
    · subst h2
      simp [h1, h1', hi]
    · have h2' : ¬ k = i := fun e => h2 e.symm
      simp [h1, h1', h2, h2']

theorem digitOnly_setChar (s : String) (i : Nat) (c : Char) (hd : digitOnly s = true)
    (hc : c.isDigit = true) : digitOnly (setChar s i c) = true := by
  simp only [digitOnly, List.all_eq_true, setChar] at hd ⊢
  intro x hx
  rcases List.mem_or_eq_of_mem_set hx with h | h
  · exact hd x h
  · rw [h]
    exact hc

theorem digitOnly_swapChars (s : String) (i j : Nat) (hd : digitOnly s = true) :
    digitOnly (swapChars s i j) = true := by
  have h0 : ∀ k, (s.data.getD k '0').isDigit = true := by
    intro k
    rw [List.getD_eq_getElem?_getD]
    cases hk : s.data[k]? with
    | none => decide
    | some c =>
      simp only [digitOnly, List.all_eq_true] at hd
      exact hd c (List.getElem?_mem hk)
  simp only [digitOnly, List.all_eq_true, swapChars] at hd ⊢
  intro x hx
  rcases List.mem_or_eq_of_mem_set hx with h | h
  · rcases List.mem_or_eq_of_mem_set h with h' | h'
    · exact hd x h'
    · rw [h']
      exact h0 j
  · rw [h]
    exact h0 i

/-- The value `luhnCheck` returns on a digit-only string, as a decision. -/
theorem luhnCheck_eq_decide (s : String) (hd : digitOnly s = true) :
    luhnCheck s = decide (luhnSumSpec s % 10 = 0) := by
  rw [Bool.eq_iff_iff, luhnCheck_eq_spec s hd]
  simp

/-- The digit value read at an index below the length of a digit-only string. -/
theorem digitAt_eq (s : String) (hd : digitOnly s = true) (i : Nat) (hi : i < s.length) :
    ∃ c, s.data[i]? = some c ∧ c.isDigit = true ∧ digitAt s.data i = digitValue c := by
  have hi' : i < s.data.length := hi
  refine ⟨s.data[i], List.getElem?_eq_getElem hi', ?_, ?_⟩
  · simp only [digitOnly, List.all_eq_true] at hd
    exact hd _ (List.getElem_mem hi')
  · simp only [digitAt, List.getElem?_eq_getElem hi']

/-- Exchanging two digits whose positions have the same parity keeps the Luhn sum. -/
theorem luhnSumSpec_swap_same_parity (s : String) (i j : Nat)
    (hi : i < s.length) (hj : j < s.length)
    (hpar : (s.length - 1 - i) % 2 = (s.length - 1 - j) % 2) :
    luhnSumSpec (swapChars s i j) = luhnSumSpec s := by
  rw [luhnSumSpec_eq_left, luhnSumSpec_eq_left, length_swapChars]
  by_cases hij : i = j
  · subst hij
    apply Finset.sum_congr rfl
    intro k _
    rw [digitAt_swapChars s i i hi hi k]
    by_cases hk : k = i
    · simp [hk]
    · simp [hk]
  · obtain ⟨R, hf, hg⟩ := sum_two_point
      (fun k => luhnTerm (s.length - 1 - k) (digitAt s.data k))
      (fun k => luhnTerm (s.length - 1 - k) (digitAt (swapChars s i j).data k))
      s.length i j hi hj hij
      (by
        intro k _ hki hkj
        simp only [digitAt_swapChars s i j hi hj k, hki, hkj, if_false])
    rw [hf, hg]
    simp only [digitAt_swapChars s i j hi hj, if_true, hij, if_false]
    rw [luhnTerm_parity _ _ (digitAt s.data j) hpar,
      ← luhnTerm_parity _ _ (digitAt s.data i) hpar]
    omega

/-- The arithmetic of an adjacent exchange: with digits `a ≠ b` the Luhn sum
stays a multiple of 10 exactly when the two digits are 0 and 9. -/
theorem adjacent_arith (k a b R : Nat) (ha : a ≤ 9) (hb : b ≤ 9) (hab : a ≠ b)
    (h : (R + luhnTerm (k + 1) a + luhnTerm k b) % 10 = 0) :
    (R + luhnTerm (k + 1) b + luhnTerm k a) % 10 = 0 ↔
      (a = 0 ∧ b = 9) ∨ (a = 9 ∧ b = 0) := by
  rcases Nat.mod_two_eq_zero_or_one k with hk | hk
  · have hk1 : (k + 1) % 2 = 1 := by omega
    simp only [luhnTerm, hk, hk1, if_true, one_ne_zero, if_false] at h ⊢
    split_ifs at h ⊢ <;> omega
  · have hk1 : (k + 1) % 2 = 0 := by omega
    simp only [luhnTerm, hk, hk1, if_true, one_ne_zero, if_false] at h ⊢
    split_ifs at h ⊢ <;> omega

theorem digitValue_eq_zero (c : Char) (hc : c.isDigit = true) :
    digitValue c = 0 ↔ c = '0' := by
  constructor
  · intro h
    exact digitValue_inj c '0' hc (by decide) (by rw [h]; decide)
  · rintro rfl
    decide

theorem digitValue_eq_nine (c : Char) (hc : c.isDigit = true) :
    digitValue c = 9 ↔ c = '9' := by
  constructor
  · intro h
    exact digitValue_inj c '9' hc (by decide) (by rw [h]; decide)
  · rintro rfl
    decide

theorem digitOnly_push (s : String) (c : Char) (hd : digitOnly s = true)
    (hc : c.isDigit = true) : digitOnly (s.push c) = true := by
  simp only [digitOnly, List.all_eq_true, String.data_push, List.mem_append,
    List.mem_singleton] at hd ⊢
  rintro x (hx | rfl)
  · exact hd x hx
  · exact hc

/-- The Luhn sum of a string with one more digit at the right end: the old
digits move one position up and the new digit counts as it is. -/
theorem luhnSumSpec_push (s : String) (c : Char) :
    luhnSumSpec (s.push c) =
      (∑ i in Finset.range s.length, luhnTerm (s.length - i) (digitAt s.data i)) +
        digitValue c := by
  rw [luhnSumSpec_eq_left, String.length_push, Finset.sum_range_succ, String.data_push]
  congr 1
  · apply Finset.sum_congr rfl
    intro k hk
    have hk' : k < s.data.length := Finset.mem_range.1 hk
    have e : s.length + 1 - 1 - k = s.length - k := by omega
    rw [e]
    simp only [digitAt, List.getElem?_append_left hk']
  · have e : s.length + 1 - 1 - s.length = 0 := by omega
    have hl : (s.data ++ [c])[s.length]? = some c := by
      show (s.data ++ [c])[s.data.length]? = some c
      simp
    rw [e]
    simp only [digitAt, hl, luhnTerm, Nat.zero_mod, if_true]

/-- The digit character of a value in 0..9. -/
theorem digit_char (v : Nat) (hv : v ≤ 9) :
    (Char.ofNat (48 + v)).isDigit = true ∧ digitValue (Char.ofNat (48 + v)) = v := by
  interval_cases v <;> decide

/-- An entry of the table that matches, and is the only one to match, gives the brand. -/
theorem findBrand_unique (tbl : List (String × Regex)) (s b : String) (e : String × Regex)
    (he : e ∈ tbl) (ht : e.2.test s = true)
    (hu : ∀ e' ∈ tbl, e'.2.test s = true → e' = e) :
    findBrand tbl s b = e.1 := by
  induction tbl with
  | nil => simp at he
  | cons x tbl ih =>
    obtain ⟨key, regex⟩ := x
    cases hx : regex.test s with
    | true =>
      have e1 := hu (key, regex) (by simp) hx
      simp [findBrand, hx, ← e1]
    | false =>
      have he' : e ∈ tbl := by
        rcases List.mem_cons.1 he with h | h
        · rw [h] at ht
          rw [hx] at ht
          exact absurd ht (by decide)
        · exact h
      simp only [findBrand, hx, Bool.false_eq_true, if_false]
      exact ih he' (fun e' h' => hu e' (List.mem_cons_of_mem _ h'))

theorem findBrand_none (tbl : List (String × Regex)) (s b : String)
    (h : ∀ e ∈ tbl, e.2.test s = false) : findBrand tbl s b = b := by
  have h' := findBrand_skip tbl [] s b h
  rw [List.append_nil] at h'
  rw [h']
  rfl

/-- No string is matched by two entries of `cardBrands`. -/
theorem cardBrands_disjoint (s : String) (e₁ e₂ : String × Regex)
    (h₁ : e₁ ∈ cardBrands) (h₂ : e₂ ∈ cardBrands)
    (t₁ : e₁.2.test s = true) (t₂ : e₂.2.test s = true) : e₁ = e₂ := by
  have a1 := not_visa_of_mastercard s
  have a2 := amex_excl s
  have a3 := discover_excl s
  have a4 := diners_excl s
  have a5 := jcb_excl s
  simp only [cardBrands, List.mem_cons, List.mem_singleton, List.not_mem_nil,
    or_false] at h₁ h₂
  rcases h₁ with rfl | rfl | rfl | rfl | rfl | rfl <;>
    rcases h₂ with rfl | rfl | rfl | rfl | rfl | rfl <;>
    first
      | rfl
      | (exfalso; simp_all)

/-! ## The claims -/

/-- C1: a string with at least one character other than the decimal digits 0-9
is rejected with `isValid = false`, `brand = "Invalid"` and the message
"Card number must contain only digits.", whatever digits it also contains. -/
theorem validateCreditCard_non_digit (s : String)
    (h : ∃ c ∈ s.data, c.isDigit = false) :
    validateCreditCard s =
      { isValid := false, brand := "Invalid",
        message := some "Card number must contain only digits." } := by
  apply validate_of_not_digits
  rintro ⟨-, hd⟩
  obtain ⟨c, hc, hcd⟩ := h
  have hall : ∀ x ∈ s.data, x.isDigit = true := by
    simpa [digitOnly, List.all_eq_true] using hd
  rw [hall c hc] at hcd
  exact absurd hcd (by decide)

theorem validateCreditCard_non_digit_witness :
    (∃ c ∈ "41111111111111a1".data, c.isDigit = false) ∧
      validateCreditCard "41111111111111a1" =
        { isValid := false, brand := "Invalid",
          message := some "Card number must contain only digits." } :=
  ⟨by decide, validateCreditCard_non_digit "41111111111111a1" (by decide)⟩

/-- C2: for every digit-only string, the empty one included, `luhnCheck` returns
true iff the Luhn sum of the specification (each digit itself at even positions
from the right, twice the digit, minus 9 when that exceeds 9, at odd positions)
is a multiple of 10. -/
theorem luhnCheck_iff_luhnSumSpec (s : String) (hd : digitOnly s = true) :
    luhnCheck s = true ↔ luhnSumSpec s % 10 = 0 :=
  luhnCheck_eq_spec s hd

theorem luhnCheck_iff_luhnSumSpec_witness :
    (digitOnly "79927398713" = true ∧ luhnSumSpec "79927398713" = 70 ∧
        (luhnCheck "79927398713" = true ↔ luhnSumSpec "79927398713" % 10 = 0)) ∧
      (digitOnly "" = true ∧ (luhnCheck "" = true ↔ luhnSumSpec "" % 10 = 0)) :=
  ⟨⟨by decide, by decide, luhnCheck_iff_luhnSumSpec "79927398713" (by decide)⟩,
   ⟨by decide, luhnCheck_iff_luhnSumSpec "" (by decide)⟩⟩

/-- C3: for every non-empty digit-only string the field `isValid` of the result
is `luhnCheck` of the string: it is true iff the Luhn sum is a multiple of 10. -/
theorem isValid_eq_luhnCheck (s : String) (hne : s ≠ "") (hd : digitOnly s = true) :
    (validateCreditCard s).isValid = luhnCheck s ∧
      ((validateCreditCard s).isValid = true ↔ luhnSumSpec s % 10 = 0) := by
  rw [validate_of_digits s hne hd]
  exact ⟨rfl, luhnCheck_eq_spec s hd⟩

theorem isValid_eq_luhnCheck_witness :
    ("4111111111111111" ≠ "" ∧ digitOnly "4111111111111111" = true ∧
        (validateCreditCard "4111111111111111").isValid = true ∧
        luhnSumSpec "4111111111111111" % 10 = 0) ∧
      ("1234567890123456" ≠ "" ∧ digitOnly "1234567890123456" = true ∧
        (validateCreditCard "1234567890123456").isValid = false ∧
        luhnSumSpec "1234567890123456" % 10 ≠ 0) :=
  ⟨⟨by decide, by decide, by decide,
      (isValid_eq_luhnCheck "4111111111111111" (by decide) (by decide)).2.1 (by decide)⟩,
   ⟨by decide, by decide, by decide, fun h =>
      absurd ((isValid_eq_luhnCheck "1234567890123456" (by decide) (by decide)).2.2 h)
        (by decide)⟩⟩

/-- C4: for every non-empty digit-only string the brand is the key of the
earliest entry, in the order visa, mastercard, amex, discover, diners, jcb,
whose pattern matches; it is "Unknown" iff no pattern matches; and it is fixed
by which patterns match alone, so it is the same whatever `luhnCheck` returns. -/
theorem brand_first_match (s : String) (hne : s ≠ "") (hd : digitOnly s = true) :
    cardBrands.map Prod.fst = ["visa", "mastercard", "amex", "discover", "diners", "jcb"] ∧
      (∀ pre key regex post, cardBrands = pre ++ (key, regex) :: post →
        regex.test s = true → (∀ e ∈ pre, e.2.test s = false) →
        (validateCreditCard s).brand = key) ∧
      ((validateCreditCard s).brand = "Unknown" ↔ ∀ e ∈ cardBrands, e.2.test s = false) ∧
      (∀ t : String, t ≠ "" → digitOnly t = true →
        (∀ e ∈ cardBrands, e.2.test t = e.2.test s) →
        (validateCreditCard t).brand = (validateCreditCard s).brand) := by
  rw [validate_of_digits s hne hd]
  refine ⟨rfl, ?_, ?_, ?_⟩
  · intro pre key regex post hcb hm hpre
    show findBrand cardBrands s "Unknown" = key
    rw [hcb, findBrand_skip pre _ s _ hpre, findBrand_hit key regex post s _ hm]
  · show findBrand cardBrands s "Unknown" = "Unknown" ↔ _
    apply findBrand_eq_default_iff
    intro e he
    simp only [cardBrands, List.mem_cons, List.mem_singleton, List.not_mem_nil,
      or_false] at he
    rcases he with rfl | rfl | rfl | rfl | rfl | rfl <;> decide
  · intro t htne htd hsame
    rw [validate_of_digits t htne htd]
    exact findBrand_congr cardBrands s t _ hsame

theorem brand_first_match_witness :
    ("4111111111111111" ≠ "" ∧ digitOnly "4111111111111111" = true) ∧
      (luhnCheck "4111111111111111" = true ∧ luhnCheck "4111111111111112" = false) ∧
      (validateCreditCard "4111111111111112").brand =
        (validateCreditCard "4111111111111111").brand ∧
      (validateCreditCard "4111111111111111").brand = "visa" :=
  ⟨⟨by decide, by decide⟩, ⟨by decide, by decide⟩,
   (brand_first_match "4111111111111111" (by decide) (by decide)).2.2.2
      "4111111111111112" (by decide) (by decide) (by decide),
   (brand_first_match "4111111111111111" (by decide) (by decide)).2.1
      [] "visa" visaRegex _ rfl (by decide) (by decide)⟩

/-- C5: for every non-empty digit-only string the brand of the result is one of
visa, mastercard, amex, discover, diners, jcb, Unknown, and never "Invalid". -/
theorem brand_known (s : String) (hne : s ≠ "") (hd : digitOnly s = true) :
    (validateCreditCard s).brand ∈
        ["visa", "mastercard", "amex", "discover", "diners", "jcb", "Unknown"] ∧
      (validateCreditCard s).brand ≠ "Invalid" := by
  rw [validate_of_digits s hne hd]
  show findBrand cardBrands s "Unknown" ∈ _ ∧ findBrand cardBrands s "Unknown" ≠ _
  rw [findBrand_cardBrands]
  split_ifs <;> exact ⟨by decide, by decide⟩

theorem brand_known_witness :
    ("1234567890123456" ≠ "" ∧ digitOnly "1234567890123456" = true) ∧
      (validateCreditCard "1234567890123456").brand ∈
        ["visa", "mastercard", "amex", "discover", "diners", "jcb", "Unknown"] ∧
      (validateCreditCard "1234567890123456").brand ≠ "Invalid" :=
  ⟨⟨by decide, by decide⟩, brand_known "1234567890123456" (by decide) (by decide)⟩

/-- C8: for every non-empty digit-only string the brand is "visa" iff the string
starts with 4 and has between 12 and 16 digits. -/
theorem brand_visa (s : String) (hne : s ≠ "") (hd : digitOnly s = true) :
    (validateCreditCard s).brand = "visa" ↔
      startsWith s "4" = true ∧ 12 ≤ s.length ∧ s.length ≤ 16 := by
  rw [validate_of_digits s hne hd]
  show findBrand cardBrands s "Unknown" = "visa" ↔ _
  rw [brand_visa_iff, visa_test_iff, startsWith_iff, length_eq_data]
  constructor
  · rintro ⟨w, hs, h1, h2, -⟩
    refine ⟨⟨w, hs⟩, ?_, ?_⟩ <;> rw [hs, List.length_cons] <;> omega
  · rintro ⟨⟨w, hs⟩, h1, h2⟩
    have hs' : s.data = '4' :: w := hs
    rw [hs', List.length_cons] at h1 h2
    exact ⟨w, hs', by omega, by omega, digits_of_suffix s hd ['4'] w hs'⟩

theorem brand_visa_witness :
    ("4111111111111111" ≠ "" ∧ digitOnly "4111111111111111" = true) ∧
      (validateCreditCard "4111111111111111").brand = "visa" :=
  ⟨⟨by decide, by decide⟩,
   (brand_visa "4111111111111111" (by decide) (by decide)).2 (by decide)⟩

/-- C9: for every non-empty digit-only string the brand is "mastercard" iff the
string starts with 51, 52, 53, 54 or 55 and has 16 digits. -/
theorem brand_mastercard (s : String) (hne : s ≠ "") (hd : digitOnly s = true) :
    (validateCreditCard s).brand = "mastercard" ↔
      (startsWith s "51" = true ∨ startsWith s "52" = true ∨ startsWith s "53" = true ∨
        startsWith s "54" = true ∨ startsWith s "55" = true) ∧ s.length = 16 := by
  rw [validate_of_digits s hne hd]
  show findBrand cardBrands s "Unknown" = "mastercard" ↔ _
  rw [brand_mastercard_iff, mastercard_test_iff, length_eq_data]
  simp only [startsWith_iff]
  constructor
  · rintro ⟨x, w, hs, hx, hw, -⟩
    refine ⟨?_, by rw [hs]; simp [hw]⟩
    rcases (range15 x).1 hx with rfl | rfl | rfl | rfl | rfl
    · exact Or.inl ⟨w, hs⟩
    · exact Or.inr (Or.inl ⟨w, hs⟩)
    · exact Or.inr (Or.inr (Or.inl ⟨w, hs⟩))
    · exact Or.inr (Or.inr (Or.inr (Or.inl ⟨w, hs⟩)))
    · exact Or.inr (Or.inr (Or.inr (Or.inr ⟨w, hs⟩)))
  · rintro ⟨(⟨w, hs⟩ | ⟨w, hs⟩ | ⟨w, hs⟩ | ⟨w, hs⟩ | ⟨w, hs⟩), hlen⟩
    · have hs' : s.data = '5' :: '1' :: w := hs
      rw [hs'] at hlen
      exact ⟨'1', w, hs', by decide, by simpa using hlen,
        digits_of_suffix s hd ['5', '1'] w hs'⟩
    · have hs' : s.data = '5' :: '2' :: w := hs
      rw [hs'] at hlen
      exact ⟨'2', w, hs', by decide, by simpa using hlen,
        digits_of_suffix s hd ['5', '2'] w hs'⟩
    · have hs' : s.data = '5' :: '3' :: w := hs
      rw [hs'] at hlen
      exact ⟨'3', w, hs', by decide, by simpa using hlen,
        digits_of_suffix s hd ['5', '3'] w hs'⟩
    · have hs' : s.data = '5' :: '4' :: w := hs
      rw [hs'] at hlen
      exact ⟨'4', w, hs', by decide, by simpa using hlen,
        digits_of_suffix s hd ['5', '4'] w hs'⟩
    · have hs' : s.data = '5' :: '5' :: w := hs
      rw [hs'] at hlen
      exact ⟨'5', w, hs', by decide, by simpa using hlen,
        digits_of_suffix s hd ['5', '5'] w hs'⟩

theorem brand_mastercard_witness :
    ("5500005555555559" ≠ "" ∧ digitOnly "5500005555555559" = true) ∧
      (validateCreditCard "5500005555555559").brand = "mastercard" ∧
      luhnCheck "5500005555555559" = true :=
  ⟨⟨by decide, by decide⟩,
   (brand_mastercard "5500005555555559" (by decide) (by decide)).2 (by decide),
   by decide⟩

/-- C10: for every non-empty digit-only string the brand is "amex" iff the
string starts with 34 or 37 and has 15 digits. -/
theorem brand_amex (s : String) (hne : s ≠ "") (hd : digitOnly s = true) :
    (validateCreditCard s).brand = "amex" ↔
      (startsWith s "34" = true ∨ startsWith s "37" = true) ∧ s.length = 15 := by
  rw [validate_of_digits s hne hd]
  show findBrand cardBrands s "Unknown" = "amex" ↔ _
  rw [brand_amex_iff, amex_test_iff, length_eq_data]
  simp only [startsWith_iff]
  constructor
  · rintro ⟨x, w, hs, hx, hw, -⟩
    refine ⟨?_, by rw [hs]; simp [hw]⟩
    rcases hx with rfl | rfl
    · exact Or.inl ⟨w, hs⟩
    · exact Or.inr ⟨w, hs⟩
  · rintro ⟨(⟨w, hs⟩ | ⟨w, hs⟩), hlen⟩
    · have hs' : s.data = '3' :: '4' :: w := hs
      rw [hs'] at hlen
      exact ⟨'4', w, hs', Or.inl rfl, by simpa using hlen,
        digits_of_suffix s hd ['3', '4'] w hs'⟩
    · have hs' : s.data = '3' :: '7' :: w := hs
      rw [hs'] at hlen
      exact ⟨'7', w, hs', Or.inr rfl, by simpa using hlen,
        digits_of_suffix s hd ['3', '7'] w hs'⟩

theorem brand_amex_witness :
    ("340000000000009" ≠ "" ∧ digitOnly "340000000000009" = true) ∧
      (validateCreditCard "340000000000009").brand = "amex" ∧
      luhnCheck "340000000000009" = true :=
  ⟨⟨by decide, by decide⟩,
   (brand_amex "340000000000009" (by decide) (by decide)).2 (by decide),
   by decide⟩

/-- C6, as stated, fails: the 16-digit string 3530111333300000 has the brand
"jcb" though its length is not 15, and the 15-digit string 350000000000000
starts with 35 followed by 3 digits and is not "jcb". -/
theorem jcb_rule_stated_fails :
    ("3530111333300000" ≠ "" ∧ digitOnly "3530111333300000" = true ∧
        (validateCreditCard "3530111333300000").brand = "jcb" ∧
        jcbRuleStated "3530111333300000" = false) ∧
      ("350000000000000" ≠ "" ∧ digitOnly "350000000000000" = true ∧
        (validateCreditCard "350000000000000").brand = "Unknown" ∧
        jcbRuleStated "350000000000000" = true) := by
  decide

/-- C6, amended: for every non-empty digit-only string the brand is "jcb" iff
the string starts with 2131 or with 1800 and has 15 digits, or starts with 35
and has 16 digits. -/
theorem brand_jcb (s : String) (hne : s ≠ "") (hd : digitOnly s = true) :
    (validateCreditCard s).brand = "jcb" ↔
      ((startsWith s "2131" = true ∨ startsWith s "1800" = true) ∧ s.length = 15) ∨
        (startsWith s "35" = true ∧ s.length = 16) := by
  rw [validate_of_digits s hne hd]
  show findBrand cardBrands s "Unknown" = "jcb" ↔ _
  rw [brand_jcb_iff, jcb_test_iff, length_eq_data]
  simp only [startsWith_iff]
  constructor
  · rintro ⟨w, (⟨hs, hw⟩ | ⟨hs, hw⟩ | ⟨hs, hw⟩), -⟩
    · exact Or.inl ⟨Or.inl ⟨w, hs⟩, by rw [hs]; simp [hw]⟩
    · exact Or.inl ⟨Or.inr ⟨w, hs⟩, by rw [hs]; simp [hw]⟩
    · exact Or.inr ⟨⟨w, hs⟩, by rw [hs]; simp [hw]⟩
  · rintro (⟨(⟨w, hs⟩ | ⟨w, hs⟩), hlen⟩ | ⟨⟨w, hs⟩, hlen⟩)
    · have hs' : s.data = '2' :: '1' :: '3' :: '1' :: w := hs
      rw [hs'] at hlen
      exact ⟨w, Or.inl ⟨hs', by simpa using hlen⟩,
        digits_of_suffix s hd ['2', '1', '3', '1'] w hs'⟩
    · have hs' : s.data = '1' :: '8' :: '0' :: '0' :: w := hs
      rw [hs'] at hlen
      exact ⟨w, Or.inr (Or.inl ⟨hs', by simpa using hlen⟩),
        digits_of_suffix s hd ['1', '8', '0', '0'] w hs'⟩
    · have hs' : s.data = '3' :: '5' :: w := hs
      rw [hs'] at hlen
      exact ⟨w, Or.inr (Or.inr ⟨hs', by simpa using hlen⟩),
        digits_of_suffix s hd ['3', '5'] w hs'⟩

theorem brand_jcb_witness :
    ("3530111333300000" ≠ "" ∧ digitOnly "3530111333300000" = true) ∧
      (validateCreditCard "3530111333300000").brand = "jcb" :=
  ⟨⟨by decide, by decide⟩,
   (brand_jcb "3530111333300000" (by decide) (by decide)).2 (by decide)⟩

/-- C7, as stated, fails: the 14-digit string 36000000000000 has the brand
"diners" though it starts neither with 30 nor with 6 or 8, and the 14-digit
string 60000000000000 starts with 6 followed by a digit and is not "diners". -/
theorem diners_rule_stated_fails :
    ("36000000000000" ≠ "" ∧ digitOnly "36000000000000" = true ∧
        (validateCreditCard "36000000000000").brand = "diners" ∧
        dinersRuleStated "36000000000000" = false) ∧
      ("60000000000000" ≠ "" ∧ digitOnly "60000000000000" = true ∧
        (validateCreditCard "60000000000000").brand = "Unknown" ∧
        dinersRuleStated "60000000000000" = true) := by
  decide

/-- C7, amended: for every non-empty digit-only string the brand is "diners"
iff the string has 14 digits and starts either with 30 followed by a digit in
0-5, or with 36 or 38 followed by any digit. -/
theorem brand_diners (s : String) (hne : s ≠ "") (hd : digitOnly s = true) :
    (validateCreditCard s).brand = "diners" ↔
      s.length = 14 ∧
        ((startsWith s "30" = true ∧ charIn s 2 '0' '5' = true) ∨
          ((startsWith s "36" = true ∨ startsWith s "38" = true) ∧
            charIn s 2 '0' '9' = true)) := by
  rw [validate_of_digits s hne hd]
  show findBrand cardBrands s "Unknown" = "diners" ↔ _
  rw [brand_diners_iff, diners_test_iff, length_eq_data]
  simp only [startsWith_iff]
  constructor
  · rintro ⟨x, y, w, hs, (⟨rfl, hy⟩ | ⟨(rfl | rfl), hy⟩), hw, -⟩
    · exact ⟨by rw [hs]; simp [hw], Or.inl ⟨⟨y :: w, hs⟩, by simp [charIn, hs, hy]⟩⟩
    · exact ⟨by rw [hs]; simp [hw],
        Or.inr ⟨Or.inl ⟨y :: w, hs⟩, by simp [charIn, hs, hy]⟩⟩
    · exact ⟨by rw [hs]; simp [hw],
        Or.inr ⟨Or.inr ⟨y :: w, hs⟩, by simp [charIn, hs, hy]⟩⟩
  · rintro ⟨hlen, (⟨⟨v, hs⟩, hc⟩ | ⟨(⟨v, hs⟩ | ⟨v, hs⟩), hc⟩)⟩
    · have hs' : s.data = '3' :: '0' :: v := hs
      cases v with
      | nil => simp [charIn, hs'] at hc
      | cons y w =>
        rw [hs'] at hlen
        exact ⟨'0', y, w, hs', Or.inl ⟨rfl, by simpa [charIn, hs'] using hc⟩,
          by simpa using hlen, digits_of_suffix s hd ['3', '0', y] w hs'⟩
    · have hs' : s.data = '3' :: '6' :: v := hs
      cases v with
      | nil => simp [charIn, hs'] at hc
      | cons y w =>
        rw [hs'] at hlen
        exact ⟨'6', y, w, hs', Or.inr ⟨Or.inl rfl, by simpa [charIn, hs'] using hc⟩,
          by simpa using hlen, digits_of_suffix s hd ['3', '6', y] w hs'⟩
    · have hs' : s.data = '3' :: '8' :: v := hs
      cases v with
      | nil => simp [charIn, hs'] at hc
      | cons y w =>
        rw [hs'] at hlen
        exact ⟨'8', y, w, hs', Or.inr ⟨Or.inr rfl, by simpa [charIn, hs'] using hc⟩,
          by simpa using hlen, digits_of_suffix s hd ['3', '8', y] w hs'⟩

theorem brand_diners_witness :
    ("36000000000000" ≠ "" ∧ digitOnly "36000000000000" = true) ∧
      (validateCreditCard "36000000000000").brand = "diners" :=
  ⟨⟨by decide, by decide⟩,
   (brand_diners "36000000000000" (by decide) (by decide)).2 (by decide)⟩

/-- C11: for every non-empty digit-only string the brand is "discover" iff the
string has 16 digits and starts with 6011 or with 65 followed by 2 more
digits. -/
theorem brand_discover (s : String) (hne : s ≠ "") (hd : digitOnly s = true) :
    (validateCreditCard s).brand = "discover" ↔
      s.length = 16 ∧
        (startsWith s "6011" = true ∨
          (startsWith s "65" = true ∧ charIn s 2 '0' '9' = true ∧
            charIn s 3 '0' '9' = true)) := by
  rw [validate_of_digits s hne hd]
  show findBrand cardBrands s "Unknown" = "discover" ↔ _
  rw [brand_discover_iff, discover_test_iff]
  simp only [startsWith_iff]
  constructor
  · rintro ⟨w, (⟨hs, hw⟩ | ⟨hs, hw⟩), -⟩
    · exact ⟨by rw [length_eq_data, hs]; simp [hw], Or.inl ⟨w, hs⟩⟩
    · have hlen : s.length = 16 := by rw [length_eq_data, hs]; simp [hw]
      exact ⟨hlen, Or.inr ⟨⟨w, hs⟩, charIn_of_digitOnly s hd 2 (by omega),
        charIn_of_digitOnly s hd 3 (by omega)⟩⟩
  · rintro ⟨hlen, (⟨w, hs⟩ | ⟨⟨w, hs⟩, -, -⟩)⟩
    · have hs' : s.data = '6' :: '0' :: '1' :: '1' :: w := hs
      rw [length_eq_data, hs'] at hlen
      exact ⟨w, Or.inl ⟨hs', by simpa using hlen⟩,
        digits_of_suffix s hd ['6', '0', '1', '1'] w hs'⟩
    · have hs' : s.data = '6' :: '5' :: w := hs
      rw [length_eq_data, hs'] at hlen
      exact ⟨w, Or.inr ⟨hs', by simpa using hlen⟩,
        digits_of_suffix s hd ['6', '5'] w hs'⟩

theorem brand_discover_witness :
    ("6011111111111117" ≠ "" ∧ digitOnly "6011111111111117" = true) ∧
      (validateCreditCard "6011111111111117").brand = "discover" ∧
      (validateCreditCard "6500000000000002").brand = "discover" :=
  ⟨⟨by decide, by decide⟩,
   (brand_discover "6011111111111117" (by decide) (by decide)).2 (by decide),
   by decide⟩

/-- C12: the empty string does not pass the digit-only guard: the result is
`isValid = false`, `brand = "Invalid"` with the message
"Card number must contain only digits.". -/
theorem validateCreditCard_empty :
    guardRegex.test "" = false ∧
      validateCreditCard "" =
        { isValid := false, brand := "Invalid",
          message := some "Card number must contain only digits." } := by
  decide

/-- C13: the message is present only on the invalid-input path: the result of
a non-empty digit-only string is `isValid` and `brand` with no message, and the
result of every other string carries the message. -/
theorem message_iff (s : String) :
    ((s ≠ "" ∧ digitOnly s = true) ↔
        validateCreditCard s =
          { isValid := luhnCheck s, brand := findBrand cardBrands s "Unknown",
            message := none }) ∧
      ((s ≠ "" ∧ digitOnly s = true) ↔ (validateCreditCard s).message = none) ∧
      (¬ (s ≠ "" ∧ digitOnly s = true) ↔
        (validateCreditCard s).message = some "Card number must contain only digits.") := by
  by_cases h : s ≠ "" ∧ digitOnly s = true
  · have hv := validate_of_digits s h.1 h.2
    simp [hv, h]
  · have hv := validate_of_not_digits s h
    simp only [hv, h, false_iff, not_false_eq_true, true_iff, and_true]
    exact ⟨by simp, by simp⟩

/-- C19: on the empty string `luhnCheck` computes the sum 0 and returns true. -/
theorem luhnCheck_empty : luhnSum "" = some 0 ∧ luhnCheck "" = true := by
  decide

/-- C20: for every digit `d` in 0..9 the value `luhnCheck` adds for a doubled
digit, `2 * d` when that is at most 9 and `2 * d - 9` otherwise, is the sum of
the decimal digits of `2 * d`. -/
theorem doubleDigit_eq_digit_sum (d : Nat) (hd : d ≤ 9) :
    doubleDigit (some d) = some (if 2 * d ≤ 9 then 2 * d else 2 * d - 9) ∧
      doubleDigit (some d) = some (Nat.digits 10 (2 * d)).sum := by
  interval_cases d <;> simp [doubleDigit]

theorem doubleDigit_eq_digit_sum_witness :
    7 ≤ 9 ∧ doubleDigit (some 7) = some 5 ∧
      doubleDigit (some 7) = some (Nat.digits 10 (2 * 7)).sum :=
  ⟨by decide, by decide, (doubleDigit_eq_digit_sum 7 (by decide)).2⟩

/-- C14: `luhnCheck` depends only on each digit's value and on the parity of
its position from the right: exchanging the digits at two positions of a
digit-only string whose distances from the right end have the same parity gives
a digit-only string of the same length with the same `luhnCheck`. -/
theorem luhnCheck_swap_same_parity (s : String) (i j : Nat) (hd : digitOnly s = true)
    (hi : i < s.length) (hj : j < s.length)
    (hpar : (s.length - 1 - i) % 2 = (s.length - 1 - j) % 2) :
    digitOnly (swapChars s i j) = true ∧ (swapChars s i j).length = s.length ∧
      luhnCheck (swapChars s i j) = luhnCheck s := by
  refine ⟨digitOnly_swapChars s i j hd, length_swapChars s i j, ?_⟩
  rw [luhnCheck_eq_decide _ (digitOnly_swapChars s i j hd), luhnCheck_eq_decide s hd,
    luhnSumSpec_swap_same_parity s i j hi hj hpar]

theorem luhnCheck_swap_same_parity_witness :
    (digitOnly "4111111111111111" = true ∧ swapChars "4111111111111111" 0 2 = "1141111111111111") ∧
      luhnCheck "1141111111111111" = luhnCheck "4111111111111111" :=
  ⟨⟨by decide, by decide⟩,
   (luhnCheck_swap_same_parity "4111111111111111" 0 2 (by decide) (by decide) (by decide)
      (by decide)).2.2⟩

/-- C15: `luhnCheck` detects every single-digit error: in a digit-only string
with `luhnCheck` true, replacing the digit at any position by a different digit
gives a string with `luhnCheck` false. -/
theorem luhnCheck_single_digit_error (s : String) (i : Nat) (c : Char)
    (hd : digitOnly s = true) (hv : luhnCheck s = true) (hi : i < s.length)
    (hc : c.isDigit = true) (hne : s.data[i]? ≠ some c) :
    luhnCheck (setChar s i c) = false := by
  have hd' := digitOnly_setChar s i c hd hc
  rw [luhnCheck_eq_spec s hd, luhnSumSpec_eq_left] at hv
  rw [luhnCheck_eq_decide _ hd', luhnSumSpec_eq_left, length_setChar]
  obtain ⟨R, hf, hg⟩ := sum_one_point
    (fun k => luhnTerm (s.length - 1 - k) (digitAt s.data k))
    (fun k => luhnTerm (s.length - 1 - k) (digitAt (setChar s i c).data k))
    s.length i hi
    (by
      intro k _ hki
      simp only [digitAt_setChar s i c hi k, hki, if_false])
  rw [hf] at hv
  rw [hg]
  simp only [digitAt_setChar s i c hi, if_true]
  obtain ⟨a, ha, had, hav⟩ := digitAt_eq s hd i hi
  have h1 := luhnTerm_le (s.length - 1 - i) _ (digitValue_le a had)
  have h2 := luhnTerm_le (s.length - 1 - i) _ (digitValue_le c hc)
  have h3 : luhnTerm (s.length - 1 - i) (digitValue a) ≠
      luhnTerm (s.length - 1 - i) (digitValue c) := by
    intro e
    have e' := luhnTerm_inj _ _ _ (digitValue_le a had) (digitValue_le c hc) e
    have e'' := digitValue_inj a c had hc e'
    rw [ha, e''] at hne
    exact hne rfl
  rw [hav] at hv
  simp only [decide_eq_false_iff_not]
  omega

theorem luhnCheck_single_digit_error_witness :
    (digitOnly "4111111111111111" = true ∧ luhnCheck "4111111111111111" = true ∧
        setChar "4111111111111111" 3 '7' = "4117111111111111") ∧
      luhnCheck "4117111111111111" = false :=
  ⟨⟨by decide, by decide, by decide⟩,
   luhnCheck_single_digit_error "4111111111111111" 3 '7' (by decide) (by decide)
      (by decide) (by decide) (by decide)⟩

/-- C17: in a digit-only string with `luhnCheck` true, exchanging two adjacent
digits that differ gives a string with `luhnCheck` false, except when the two
digits are 0 and 9 (in either order), when it gives `luhnCheck` true. -/
theorem luhnCheck_adjacent_swap (s : String) (i : Nat) (hd : digitOnly s = true)
    (hv : luhnCheck s = true) (hi : i + 1 < s.length)
    (hne : s.data[i]? ≠ s.data[i + 1]?) :
    luhnCheck (swapChars s i (i + 1)) =
      decide ((s.data[i]? = some '0' ∧ s.data[i + 1]? = some '9') ∨
        (s.data[i]? = some '9' ∧ s.data[i + 1]? = some '0')) := by
  have hi0 : i < s.length := by omega
  have hd' := digitOnly_swapChars s i (i + 1) hd
  rw [luhnCheck_eq_spec s hd, luhnSumSpec_eq_left] at hv
  rw [luhnCheck_eq_decide _ hd', luhnSumSpec_eq_left, length_swapChars]
  obtain ⟨R, hf, hg⟩ := sum_two_point
    (fun k => luhnTerm (s.length - 1 - k) (digitAt s.data k))
    (fun k => luhnTerm (s.length - 1 - k) (digitAt (swapChars s i (i + 1)).data k))
    s.length i (i + 1) hi0 hi (by omega)
    (by
      intro k _ hki hkj
      simp only [digitAt_swapChars s i (i + 1) hi0 hi k, hki, hkj, if_false])
  rw [hf] at hv
  rw [hg]
  simp only [digitAt_swapChars s i (i + 1) hi0 hi, if_true,
    show ¬ (i = i + 1) by omega, if_false]
  obtain ⟨a, ha, had, hav⟩ := digitAt_eq s hd i hi0
  obtain ⟨b, hb, hbd, hbv⟩ := digitAt_eq s hd (i + 1) hi
  have hab : digitValue a ≠ digitValue b := by
    intro e
    rw [ha, hb, digitValue_inj a b had hbd e] at hne
    exact hne rfl
  have e1 : s.length - 1 - i = (s.length - 1 - (i + 1)) + 1 := by omega
  rw [hav, hbv, e1] at hv ⊢
  have key := adjacent_arith (s.length - 1 - (i + 1)) (digitValue a) (digitValue b) R
    (digitValue_le a had) (digitValue_le b hbd) hab hv
  rw [ha, hb]
  simp only [Option.some.injEq, ← digitValue_eq_zero a had, ← digitValue_eq_nine a had,
    ← digitValue_eq_zero b hbd, ← digitValue_eq_nine b hbd]
  exact decide_eq_decide.2 key

theorem luhnCheck_adjacent_swap_witness :
    (digitOnly "4111111111111111" = true ∧ luhnCheck "4111111111111111" = true ∧
        swapChars "4111111111111111" 0 1 = "1411111111111111" ∧
        luhnCheck "1411111111111111" = false) ∧
      (digitOnly "0901" = true ∧ luhnCheck "0901" = true ∧
        swapChars "0901" 0 1 = "9001" ∧ luhnCheck "9001" = true) :=
  ⟨⟨by decide, by decide, by decide,
     luhnCheck_adjacent_swap "4111111111111111" 0 (by decide) (by decide) (by decide)
       (by decide)⟩,
   ⟨by decide, by decide, by decide,
     luhnCheck_adjacent_swap "0901" 0 (by decide) (by decide) (by decide) (by decide)⟩⟩

/-- C16: every digit-only string, the empty one included, has exactly one Luhn
check digit: exactly one digit `c` makes `luhnCheck` of the string followed by
`c` true. -/
theorem unique_check_digit (s : String) (hd : digitOnly s = true) :
    ∃! c : Char, c.isDigit = true ∧ luhnCheck (s.push c) = true := by
  have key : ∀ c : Char, c.isDigit = true →
      (luhnCheck (s.push c) = true ↔
        ((∑ i in Finset.range s.length, luhnTerm (s.length - i) (digitAt s.data i)) +
          digitValue c) % 10 = 0) := by
    intro c hc
    rw [luhnCheck_eq_spec _ (digitOnly_push s c hd hc), luhnSumSpec_push]
  generalize (∑ i in Finset.range s.length, luhnTerm (s.length - i) (digitAt s.data i)) = X
    at key
  have hv : (10 - X % 10) % 10 ≤ 9 := by omega
  obtain ⟨hc, hcv⟩ := digit_char _ hv
  refine ⟨Char.ofNat (48 + (10 - X % 10) % 10), ⟨hc, (key _ hc).2 (by rw [hcv]; omega)⟩, ?_⟩
  rintro c' ⟨hc', hl⟩
  have h1 := (key c' hc').1 hl
  have h2 := digitValue_le c' hc'
  apply digitValue_inj c' _ hc' hc
  rw [hcv]
  omega

theorem unique_check_digit_witness :
    (digitOnly "7992739871" = true ∧ luhnCheck ("7992739871".push '3') = true) ∧
      ∃! c : Char, c.isDigit = true ∧ luhnCheck ("7992739871".push c) = true :=
  ⟨⟨by decide, by decide⟩, unique_check_digit "7992739871" (by decide)⟩

/-- C18, as stated, fails: no string is matched by more than one of the six
brand patterns. -/
theorem patterns_overlap_fails :
    ¬ ∃ s : String, ∃ e₁ ∈ cardBrands, ∃ e₂ ∈ cardBrands,
        e₁.1 ≠ e₂.1 ∧ e₁.2.test s = true ∧ e₂.2.test s = true := by
  rintro ⟨s, e₁, h₁, e₂, h₂, hne, t₁, t₂⟩
  exact hne (congrArg Prod.fst (cardBrands_disjoint s e₁ e₂ h₁ h₂ t₁ t₂))

/-- C18, amended: the brand patterns do not overlap, so the order of the brand
table does not matter: for every string at most one of the six patterns
matches, and the brand loop returns the same brand for every reordering of the
table. -/
theorem brand_order_irrelevant (s : String) :
    (∀ e₁ ∈ cardBrands, ∀ e₂ ∈ cardBrands,
        e₁.2.test s = true → e₂.2.test s = true → e₁ = e₂) ∧
      (∀ tbl : List (String × Regex), tbl.Perm cardBrands →
        findBrand tbl s "Unknown" = findBrand cardBrands s "Unknown") := by
  refine ⟨fun e₁ h₁ e₂ h₂ t₁ t₂ => cardBrands_disjoint s e₁ e₂ h₁ h₂ t₁ t₂, ?_⟩
  intro tbl hp
  by_cases h : ∃ e ∈ cardBrands, e.2.test s = true
  · obtain ⟨e, he, ht⟩ := h
    rw [findBrand_unique tbl s _ e (hp.mem_iff.2 he) ht
        (fun e' h' t' => cardBrands_disjoint s e' e (hp.mem_iff.1 h') he t' ht),
      findBrand_unique cardBrands s _ e he ht
        (fun e' h' t' => cardBrands_disjoint s e' e h' he t' ht)]
  · have h' : ∀ e ∈ cardBrands, e.2.test s = false := by
      intro e he
      rw [← Bool.not_eq_true]
      exact fun ht => h ⟨e, he, ht⟩
    rw [findBrand_none tbl s _ (fun e he => h' e (hp.mem_iff.1 he)),
      findBrand_none cardBrands s _ h']

end DesafioDio
